import Mathlib

/-!
# The whisky wiki's versioned document store, embedded shallowly

This development embeds the revision-tracking variant of `main.go`:
the binary key codec (`byteID` / `binary.BigEndian.Uint64`), the gob
document codec as it is used on the `Page` struct (`toBytes` /
`fromBytes`), the bolt bucket operations the store relies on
(create-if-absent, `NextSequence`, sorted `Put`, `Get`, cursor
`Last` / `Seek` / `Prev`), and the query functions `savePage`,
`loadPage`, `loadPageRev` and `loadHistory`, together with the
store-visible behaviour of `viewHandler` and `saveHandler`.

Bytes are `Nat`s, byte slices and Go strings are `List Nat`, the Go
`int` is `Int`, and `uint64` values are `Nat`s reduced mod `2 ^ 64`
where the source converts.  bolt transactions are assumed to commit:
the model is the successful-transaction semantics, `StoreUnavailable`
style failures being outside the embedded state.
-/

/-- Big-endian fixed-width byte encoding: `w` bytes of `n`, most
significant byte first.  `beBytes 8` models `binary.BigEndian.PutUint64`. -/
def beBytes : Nat → Nat → List Nat
  | 0, _ => []
  | w + 1, n => n / 256 ^ w :: beBytes w (n % 256 ^ w)

/-- `byteID` from main.go: the fixed 8-byte big-endian key of a uint64
id (the uint64 parameter type reduces the argument mod `2 ^ 64`). -/
def byteID (id : Nat) : List Nat := beBytes 8 (id % 2 ^ 64)

/-- `binary.BigEndian.Uint64`: big-endian read of the key bytes. -/
def beDecode (bs : List Nat) : Nat := bs.foldl (fun acc b => acc * 256 + b) 0

/-- `bytes.Compare` on byte slices: lexicographic, a strict prefix
compares smaller. -/
def bytesCmp : List Nat → List Nat → Ordering
  | [], [] => .eq
  | [], _ :: _ => .lt
  | _ :: _, [] => .gt
  | a :: as, b :: bs => if a < b then .lt else if b < a then .gt else bytesCmp as bs

/-- Comparison of naturals, written with the same branch structure as
`bytesCmp` to state order preservation of the key codec. -/
def natCmp (a b : Nat) : Ordering := if a < b then .lt else if b < a then .gt else .eq

/-- Go's `int(u)` on a uint64 value: two's-complement reinterpretation. -/
def intOfUint64 (n : Nat) : Int := if n < 2 ^ 63 then (n : Int) else (n : Int) - 2 ^ 64

/-- Go's `uint64(i)` on an int value: two's-complement reinterpretation. -/
def uint64OfInt (i : Int) : Nat := (i % (2 ^ 64 : Int)).toNat

/-- The `Page` struct of the revision-tracking variant: `Title`,
`Body`, `Created`, `Author`.  Strings and byte slices are byte lists;
the `time.Time` instant is abstracted to a `Nat`. -/
structure Page where
  title : List Nat
  body : List Nat
  created : Nat
  author : List Nat
deriving DecidableEq, Repr

/-- Go's `Page` zero value `&Page{}`, the decode target of the loads. -/
def zeroPage : Page := ⟨[], [], 0, []⟩

/-- Length-prefixed chunk: the wire unit of the gob model. -/
def encChunk (xs : List Nat) : List Nat := xs.length :: xs

/-- Base-256 little-endian digits of a natural: the gob model's
variable-length integer payload. -/
def natBytes : Nat → List Nat
  | 0 => []
  | n + 1 => (n + 1) % 256 :: natBytes ((n + 1) / 256)
decreasing_by exact Nat.div_lt_self (Nat.succ_pos n) (by norm_num)

/-- Inverse read of `natBytes`. -/
def natUnbytes (bs : List Nat) : Nat := bs.foldr (fun b acc => b + 256 * acc) 0

/-- Model of gob encoding the `Page` value (`enc.Encode(x)` inside
`toBytes`): a fixed type-descriptor prefix, then every exported field
of the struct in declaration order, tagged with its field number and
length-prefixed, zero-valued fields being omitted (gob transmits only
nonzero fields).  The `Title` field is field 1 and is encoded like any
other field of the struct. -/
def gobEncodePage (p : Page) : List Nat :=
  [71, 79, 66]
    ++ (if p.title = [] then [] else 1 :: encChunk p.title)
    ++ (if p.body = [] then [] else 2 :: encChunk p.body)
    ++ (if p.created = 0 then [] else 3 :: encChunk (natBytes p.created))
    ++ (if p.author = [] then [] else 4 :: encChunk p.author)

/-- `toBytes` from main.go: gob-encode the value into a fresh buffer
(the source discards `enc.Encode`'s error). -/
def toBytes (p : Page) : List Nat := gobEncodePage p

/-- Decode the tagged field stream into the target value `x`, setting
each transmitted field and leaving the others at `x`'s current values
(gob merges the stream into the value passed to `Decode`); `none`
models a decode error. -/
def gobDecodeFields (x : Page) : List Nat → Option Page
  | [] => some x
  | [_] => none
  | tag :: n :: rest =>
    if n ≤ rest.length then
      let chunk := rest.take n
      let rest1 := rest.drop n
      if tag = 1 then gobDecodeFields { x with title := chunk } rest1
      else if tag = 2 then gobDecodeFields { x with body := chunk } rest1
      else if tag = 3 then gobDecodeFields { x with created := natUnbytes chunk } rest1
      else if tag = 4 then gobDecodeFields { x with author := chunk } rest1
      else none
    else none
termination_by l => l.length
decreasing_by all_goals simp [List.length_drop]; omega

/-- Model of gob decoding a payload into `x` (`dec.Decode(x)` inside
`fromBytes`): check the stream's descriptor prefix, then merge the
transmitted fields into `x`; `none` models the decode error a corrupt
record produces. -/
def gobDecode (x : Page) (bs : List Nat) : Option Page :=
  match bs with
  | 71 :: 79 :: 66 :: rest => gobDecodeFields x rest
  | _ => none

/-- `fromBytes` from main.go: gob-decode `bs` into `x`.  The source
discards `dec.Decode`'s return value, so a failing decode leaves `x`
unchanged and no error is reported to the caller. -/
def fromBytes (bs : List Nat) (x : Page) : Page :=
  match gobDecode x bs with
  | some p => p
  | none => x

/-- A bolt bucket: the persisted per-bucket sequence counter (the
`NextSequence` state, 0 on creation) and the key-sorted entries. -/
structure Bucket where
  seq : Nat
  entries : List (List Nat × List Nat)
deriving DecidableEq, Repr

/-- The "history" top-level bucket: one sub-bucket per title, the
title's raw bytes naming it. -/
abbrev Store := List (List Nat × Bucket)

/-- `tx.Bucket([]byte("history")).Bucket([]byte(title))`: `none` when
the title has no sub-bucket. -/
def getBucket : Store → List Nat → Option Bucket
  | [], _ => none
  | (t, b) :: rest, title => if t = title then some b else getBucket rest title

/-- Write back a title's sub-bucket, creating it if absent
(`CreateBucketIfNotExists` followed by the in-transaction update). -/
def setBucket : Store → List Nat → Bucket → Store
  | [], title, b => [(title, b)]
  | (t, b0) :: rest, title, b =>
    if t = title then (title, b) :: rest else (t, b0) :: setBucket rest title b

/-- bolt `Put`: insert key `k` with value `v` keeping the entry list
sorted by `bytes.Compare`, replacing an equal key. -/
def putEntry (k v : List Nat) : List (List Nat × List Nat) → List (List Nat × List Nat)
  | [] => [(k, v)]
  | (k0, v0) :: rest =>
    match bytesCmp k k0 with
    | .lt => (k, v) :: (k0, v0) :: rest
    | .eq => (k, v) :: rest
    | .gt => (k0, v0) :: putEntry k v rest

/-- bolt `Get`: the value stored under exactly `k`, `nil` if absent. -/
def bucketGet (b : Bucket) (k : List Nat) : Option (List Nat) :=
  (b.entries.find? (fun e => e.1 == k)).map Prod.snd

/-- The id `b.NextSequence()` yields inside `savePage`: the persisted
counter (0 for a fresh bucket) incremented by one. -/
def nextSeq (s : Store) (title : List Nat) : Nat :=
  ((getBucket s title).getD ⟨0, []⟩).seq + 1

/-- `savePage` from main.go: one write transaction that creates the
title's sub-bucket if absent, draws the next sequence number, and puts
the gob payload under the id's 8-byte key.  The Go function returns
only the transaction error (`nil` here, the model being the semantics
of a committing transaction); the pair carries the resulting store
state alongside that return value. -/
def savePage (s : Store) (p : Page) : Store × Option String :=
  let b := (getBucket s p.title).getD ⟨0, []⟩
  let id := nextSeq s p.title
  (setBucket s p.title ⟨id, putEntry (byteID id) (toBytes p) b.entries⟩, none)

/-- `loadPageRev` from main.go: id 0 reads the cursor's last entry
(the latest revision, as the source comment states), any other id is
an exact `Get`; a missing bucket or `nil` payload is the error
"page not exists"; the payload is gob-decoded into a zero `Page`. -/
def loadPageRev (s : Store) (title : List Nat) (id : Nat) : Except String Page :=
  match getBucket s title with
  | none => .error "page not exists"
  | some b =>
    let pageBytes :=
      if id = 0 then (b.entries.getLast?).map Prod.snd
      else bucketGet b (byteID id)
    match pageBytes with
    | none => .error "page not exists"
    | some bs => .ok (fromBytes bs zeroPage)

/-- `loadPage` from main.go: the latest revision via the 0 sentinel. -/
def loadPage (s : Store) (title : List Nat) : Except String Page :=
  loadPageRev s title 0

/-- A history entry of the revision-tracking variant: `Num` (a Go
`int`), `Created` and `Author` from the decoded payload. -/
structure Revision where
  num : Int
  created : Nat
  author : List Nat
deriving DecidableEq, Repr

/-- The `HistoryPage` result of `loadHistory`. -/
structure HistoryPage where
  title : List Nat
  revs : List Revision
deriving DecidableEq, Repr

/-- The backward collection loop of `loadHistory`: the list holds the
entries from the cursor position back to the first key (the order
`c.Prev` visits them); `j` is the loop counter `i` and `n` the page
size.  The decode target is the single `Page` value the source
allocates once and reuses across iterations, so a field omitted from a
payload keeps the value decoded on an earlier iteration. -/
def walkBack (n : Int) : Page → Int → List (List Nat × List Nat) → List Revision
  | _, _, [] => []
  | p, j, (k, v) :: rest =>
    if j ≥ n then []
    else
      let q := fromBytes v p
      ⟨intOfUint64 (beDecode k), q.created, q.author⟩ :: walkBack n q (j + 1) rest

/-- The scan bolt's `Cursor.Seek` performs: find the first entry of
the sorted list whose key is `≥ k`, returned with the reversed strict
prefix (exactly the entries `c.Prev` will visit after it); `none`
models `Seek` returning `nil` when every key is `< k`. -/
def seekBackAux (k : List Nat) (acc : List (List Nat × List Nat)) :
    List (List Nat × List Nat) → Option ((List Nat × List Nat) × List (List Nat × List Nat))
  | [] => none
  | e :: rest =>
    match bytesCmp e.1 k with
    | .lt => seekBackAux k (e :: acc) rest
    | _ => some (e, acc)

/-- `loadHistory` from main.go: `from = -1` positions the cursor at
the last key (`c.Last`, failing "page not exists" on an empty bucket);
any other `from` is converted to uint64, encoded, and sought — a seek
that does not land on exactly that key (`bytes.Compare(k, idb) != 0`,
including `Seek` returning `nil`) fails "page not exists".  Up to `n`
entries are then collected walking the cursor backward. -/
def loadHistory (s : Store) (title : List Nat) (frm n : Int) : Except String HistoryPage :=
  match getBucket s title with
  | none => .error "page not exists"
  | some b =>
    if frm = -1 then
      if b.entries.isEmpty then .error "page not exists"
      else .ok ⟨title, walkBack n zeroPage 0 b.entries.reverse⟩
    else
      let idb := byteID (uint64OfInt frm)
      match seekBackAux idb [] b.entries with
      | none => .error "page not exists"
      | some (e, acc) =>
        if e.1 = idb then .ok ⟨title, walkBack n zeroPage 0 (e :: acc)⟩
        else .error "page not exists"

/-- `strconv.ParseUint(rev, 10, 64)`: decimal digits only, no sign, no
empty string, value below `2 ^ 64`. -/
def parseUint64 (s : String) : Option Nat :=
  let cs := s.toList
  if cs = [] then none
  else if cs.all (fun c => c.isDigit) then
    let v := cs.foldl (fun acc c => acc * 10 + (c.toNat - 48)) 0
    if v < 2 ^ 64 then some v else none
  else none

/-- The observable outcome of `viewHandler`. -/
inductive ViewResult where
  | notFound
  | render (p : Page)
  | redirectEdit (title : List Nat)
deriving DecidableEq, Repr

/-- `viewHandler` from main.go restricted to its response: a nonempty
`rev` query is parsed with `ParseUint` and the parsed value is passed
to `loadPageRev` as is, 0 included; a parse or load failure is a 404;
without a `rev` query the latest page is loaded, failure redirecting
to the editor. -/
def viewHandler (s : Store) (title : List Nat) (rev : String) : ViewResult :=
  if rev ≠ "" then
    match parseUint64 rev with
    | none => .notFound
    | some id =>
      match loadPageRev s title id with
      | .error _ => .notFound
      | .ok p => .render p
  else
    match loadPage s title with
    | .error _ => .redirectEdit title
    | .ok p => .render p

/-- `strings.Replace(body, CRLF, LF, -1)`: a single left-to-right
pass replacing each non-overlapping occurrence of 13,10 by 10. -/
def crlfToLf : List Nat → List Nat
  | [] => []
  | [c] => [c]
  | c1 :: c2 :: rest =>
    if c1 = 13 ∧ c2 = 10 then 10 :: crlfToLf rest
    else c1 :: crlfToLf (c2 :: rest)

/-- Whether a byte list contains the two-byte sequence 13,10. -/
def hasCRLF : List Nat → Bool
  | [] => false
  | [_] => false
  | c1 :: c2 :: rest => (c1 == 13 && c2 == 10) || hasCRLF (c2 :: rest)

/-- `saveHandler` from main.go restricted to its store effect: the
form body has CRLF normalized, the `Page` is stamped with the current
time and the request's remote address, and `savePage` appends it. -/
def saveHandler (s : Store) (title bodyForm : List Nat) (now : Nat)
    (remoteAddr : List Nat) : Store :=
  (savePage s ⟨title, crlfToLf bodyForm, now, remoteAddr⟩).1

/-- Fold a sequence of save transactions left to right, keeping the
store state (the claims' "sequence of N successful Appends"). -/
def appendPages (ds : List Page) : Store :=
  ds.foldl (fun s p => (savePage s p).1) []

/-- The entry list a title's bucket holds after the pages `ds` were
appended with the counter previously at `k`: ascending keys
`k+1, k+2, ...` paired with the gob payloads. -/
def revEntries : List Page → Nat → List (List Nat × List Nat)
  | [], _ => []
  | d :: ds, k => (byteID (k + 1), toBytes d) :: revEntries ds (k + 1)

/-- The descending run `t, t-1, ...` of length `m`. -/
def natDescRun : Nat → Nat → List Nat
  | _, 0 => []
  | t, m + 1 => t :: natDescRun (t - 1) m

/-- Sample pages over the one-byte title 72. -/
def pgA : Page := ⟨[72], [49], 1, [97]⟩

/-- A second sample page with the same title as `pgA`. -/
def pgB : Page := ⟨[72], [50], 2, [97]⟩

/-- A third sample page with the same title as `pgA`. -/
def pgC : Page := ⟨[72], [51], 3, [98]⟩

/-- A store holding one record whose payload is not decodable gob. -/
def corruptStore : Store := [([72], ⟨1, [(byteID 1, [0])]⟩)]

/-! ## The binary key codec -/

theorem beBytes_length : ∀ w n, (beBytes w n).length = w
  | 0, _ => rfl
  | w + 1, n => by simp [beBytes, beBytes_length w]

theorem beBytes_foldl : ∀ (w n acc : Nat), n < 256 ^ w →
    (beBytes w n).foldl (fun a b => a * 256 + b) acc = acc * 256 ^ w + n
  | 0, n, acc, h => by
    simp only [beBytes, List.foldl_nil, pow_zero, Nat.mul_one]
    omega
  | w + 1, n, acc, h => by
    simp only [beBytes, List.foldl_cons]
    rw [beBytes_foldl w (n % 256 ^ w) _ (Nat.mod_lt _ (by positivity))]
    have h2 : 256 ^ w * (n / 256 ^ w) + n % 256 ^ w = n := Nat.div_add_mod n (256 ^ w)
    calc (acc * 256 + n / 256 ^ w) * 256 ^ w + n % 256 ^ w
        = acc * (256 ^ w * 256) + (256 ^ w * (n / 256 ^ w) + n % 256 ^ w) := by ring
      _ = acc * 256 ^ (w + 1) + n := by rw [h2, ← pow_succ]

theorem two_pow_64_eq : (2 : Nat) ^ 64 = 256 ^ 8 := by norm_num

theorem beDecode_byteID (n : Nat) (h : n < 2 ^ 64) : beDecode (byteID n) = n := by
  unfold beDecode byteID
  rw [Nat.mod_eq_of_lt h, beBytes_foldl 8 n 0 (two_pow_64_eq ▸ h)]
  omega

theorem natCmp_congr {a b x y : Nat} (h1 : a < b ↔ x < y) (h2 : b < a ↔ y < x) :
    natCmp a b = natCmp x y := by
  unfold natCmp
  split_ifs <;> first | rfl | tauto

theorem natCmp_add_left (t x y : Nat) : natCmp (t + x) (t + y) = natCmp x y :=
  natCmp_congr (Nat.add_lt_add_iff_left) (Nat.add_lt_add_iff_left)

theorem bytesCmp_beBytes : ∀ (w a b : Nat), a < 256 ^ w → b < 256 ^ w →
    bytesCmp (beBytes w a) (beBytes w b) = natCmp a b
  | 0, a, b, ha, hb => by
    have ha0 : a = 0 := by simpa using ha
    have hb0 : b = 0 := by simpa using hb
    subst ha0; subst hb0
    simp [beBytes, bytesCmp, natCmp]
  | w + 1, a, b, ha, hb => by
    simp only [beBytes, bytesCmp]
    rcases lt_trichotomy (a / 256 ^ w) (b / 256 ^ w) with h | h | h
    · rw [if_pos h]
      have hab : a < b := by
        by_contra hc
        push_neg at hc
        exact absurd (Nat.div_le_div_right hc) (not_le.mpr h)
      simp [natCmp, hab]
    · rw [if_neg (by omega), if_neg (by omega)]
      rw [bytesCmp_beBytes w _ _ (Nat.mod_lt _ (by positivity)) (Nat.mod_lt _ (by positivity))]
      have da : 256 ^ w * (a / 256 ^ w) + a % 256 ^ w = a := Nat.div_add_mod a (256 ^ w)
      have db : 256 ^ w * (b / 256 ^ w) + b % 256 ^ w = b := Nat.div_add_mod b (256 ^ w)
      calc natCmp (a % 256 ^ w) (b % 256 ^ w)
          = natCmp (256 ^ w * (a / 256 ^ w) + a % 256 ^ w)
              (256 ^ w * (a / 256 ^ w) + b % 256 ^ w) := (natCmp_add_left _ _ _).symm
        _ = natCmp a b := by rw [da, h, db]
    · rw [if_neg (by omega), if_pos h]
      have hab : b < a := by
        by_contra hc
        push_neg at hc
        exact absurd (Nat.div_le_div_right hc) (not_le.mpr h)
      simp [natCmp, hab, Nat.lt_asymm hab]

theorem byteID_cmp (a b : Nat) (ha : a < 2 ^ 64) (hb : b < 2 ^ 64) :
    bytesCmp (byteID a) (byteID b) = natCmp a b := by
  unfold byteID
  rw [Nat.mod_eq_of_lt ha, Nat.mod_eq_of_lt hb]
  exact bytesCmp_beBytes 8 a b (two_pow_64_eq ▸ ha) (two_pow_64_eq ▸ hb)

/-- C3: the binary key codec encodes every uint64 sequence number as a
fixed 8-byte key, the encoding preserves order (a ≤ b exactly when the
key of a is byte-lexicographically ≤ the key of b, lexicographic order
being the one `bytes.Compare` induces), and the big-endian read used
by `loadHistory` is its exact inverse. -/
theorem key_codec_order_and_inverse (a b : Nat) (ha : a < 2 ^ 64) (hb : b < 2 ^ 64) :
    (byteID a).length = 8 ∧
    beDecode (byteID a) = a ∧
    (bytesCmp (byteID a) (byteID b) ≠ Ordering.gt ↔ a ≤ b) := by
  refine ⟨beBytes_length 8 _, beDecode_byteID a ha, ?_⟩
  rw [byteID_cmp a b ha hb]
  unfold natCmp
  split_ifs <;> simp <;> omega

/-- Witness for C3 at a = 3, b = 12345. -/
theorem key_codec_order_and_inverse_witness :
    (3 < 2 ^ 64 ∧ 12345 < 2 ^ 64) ∧
    (byteID 3).length = 8 ∧
    beDecode (byteID 3) = 3 ∧
    (bytesCmp (byteID 3) (byteID 12345) ≠ Ordering.gt ↔ 3 ≤ 12345) :=
  ⟨⟨by norm_num, by norm_num⟩,
    key_codec_order_and_inverse 3 12345 (by norm_num) (by norm_num)⟩

/-! ## Store evolution under savePage -/

theorem natCmp_eq_gt {a b : Nat} : natCmp a b = Ordering.gt ↔ b < a := by
  unfold natCmp
  split_ifs <;> simp <;> omega

theorem putEntry_append (k v : List Nat) : ∀ es, (∀ e ∈ es, bytesCmp k e.1 = .gt) →
    putEntry k v es = es ++ [(k, v)]
  | [], _ => rfl
  | (k0, v0) :: rest, h => by
    have hk := h (k0, v0) (by simp)
    simp only [putEntry, hk]
    rw [putEntry_append k v rest (fun e he => h e (by simp [he]))]
    simp

theorem revEntries_length : ∀ (ds : List Page) (k : Nat),
    (revEntries ds k).length = ds.length
  | [], _ => rfl
  | _ :: ds, k => by simp [revEntries, revEntries_length ds (k + 1)]

theorem revEntries_concat : ∀ (ds : List Page) (k : Nat) (d : Page),
    revEntries (ds ++ [d]) k = revEntries ds k ++ [(byteID (k + ds.length + 1), toBytes d)]
  | [], k, d => by simp [revEntries]
  | d0 :: ds, k, d => by
    have ih := revEntries_concat ds (k + 1) d
    have harith : k + 1 + ds.length + 1 = k + (ds.length + 1) + 1 := by omega
    show (byteID (k + 1), toBytes d0) :: revEntries (ds ++ [d]) (k + 1)
        = (byteID (k + 1), toBytes d0) :: revEntries ds (k + 1)
          ++ [(byteID (k + (ds.length + 1) + 1), toBytes d)]
    rw [ih, harith]
    simp

theorem revEntries_keys : ∀ (ds : List Page) (k : Nat), ∀ e ∈ revEntries ds k,
    ∃ j, e.1 = byteID j ∧ k + 1 ≤ j ∧ j ≤ k + ds.length
  | [], _, e, he => by simp [revEntries] at he
  | d :: ds, k, e, he => by
    simp only [revEntries, List.mem_cons] at he
    rcases he with rfl | he
    · exact ⟨k + 1, rfl, le_refl _, by simp⟩
    · obtain ⟨j, h1, h2, h3⟩ := revEntries_keys ds (k + 1) e he
      refine ⟨j, h1, by omega, ?_⟩
      simp only [List.length_cons]
      omega

theorem appendPages_concat (ds : List Page) (d : Page) :
    appendPages (ds ++ [d]) = (savePage (appendPages ds) d).1 := by
  simp [appendPages, List.foldl_append]

theorem appendPages_store (ds : List Page) (T : List Nat)
    (hT : ∀ d ∈ ds, d.title = T) (hlen : ds.length < 2 ^ 64) :
    appendPages ds =
      if ds = [] then ([] : Store) else [(T, ⟨ds.length, revEntries ds 0⟩)] := by
  induction ds using List.reverseRecOn with
  | nil => simp [appendPages]
  | append_singleton ds d ih =>
    have hdT : d.title = T := hT d (by simp)
    have hT0 : ∀ d0 ∈ ds, d0.title = T := fun d0 h0 => hT d0 (by simp [h0])
    have hlen0 : ds.length < 2 ^ 64 := by
      simp only [List.length_append, List.length_singleton] at hlen
      omega
    rw [appendPages_concat, ih hT0 hlen0]
    by_cases hds : ds = []
    · subst hds
      simp [savePage, nextSeq, getBucket, setBucket, putEntry, revEntries, hdT]
    · rw [if_neg hds, if_neg (by simp)]
      have hNlt : ds.length + 1 < 2 ^ 64 := by simpa using hlen
      have hput : putEntry (byteID (ds.length + 1)) (toBytes d) (revEntries ds 0) =
          revEntries ds 0 ++ [(byteID (ds.length + 1), toBytes d)] := by
        apply putEntry_append
        intro e he
        obtain ⟨j, h1, h2, h3⟩ := revEntries_keys ds 0 e he
        rw [h1, byteID_cmp _ _ (by omega) (by omega), natCmp_eq_gt]
        omega
      show (savePage [(T, ⟨ds.length, revEntries ds 0⟩)] d).1
          = [(T, ⟨(ds ++ [d]).length, revEntries (ds ++ [d]) 0⟩)]
      simp [savePage, nextSeq, getBucket, setBucket, hdT, hput, revEntries_concat ds 0 d]

/-! ## The document codec -/

theorem natUnbytes_natBytes : ∀ n, natUnbytes (natBytes n) = n
  | 0 => by simp [natBytes, natUnbytes]
  | n + 1 => by
    have ih := natUnbytes_natBytes ((n + 1) / 256)
    simp only [natBytes, natUnbytes, List.foldr_cons]
    unfold natUnbytes at ih
    rw [ih]
    omega
termination_by n => n
decreasing_by exact Nat.div_lt_self (Nat.succ_pos n) (by norm_num)

theorem gobDecodeFields_cons (x : Page) (tag : Nat) (xs rest : List Nat) :
    gobDecodeFields x (tag :: (encChunk xs ++ rest)) =
      if tag = 1 then gobDecodeFields { x with title := xs } rest
      else if tag = 2 then gobDecodeFields { x with body := xs } rest
      else if tag = 3 then gobDecodeFields { x with created := natUnbytes xs } rest
      else if tag = 4 then gobDecodeFields { x with author := xs } rest
      else none := by
  show gobDecodeFields x (tag :: xs.length :: (xs ++ rest)) = _
  simp only [gobDecodeFields]
  rw [if_pos (by simp : xs.length ≤ (xs ++ rest).length)]
  simp only [List.take_left, List.drop_left]

theorem gobDecodeFields_last (x : Page) (tag : Nat) (xs : List Nat) :
    gobDecodeFields x (tag :: encChunk xs) =
      if tag = 1 then some { x with title := xs }
      else if tag = 2 then some { x with body := xs }
      else if tag = 3 then some { x with created := natUnbytes xs }
      else if tag = 4 then some { x with author := xs }
      else none := by
  have h := gobDecodeFields_cons x tag xs []
  simpa [gobDecodeFields] using h

theorem fromBytes_toBytes (p : Page) : fromBytes (toBytes p) zeroPage = p := by
  rcases p with ⟨t, b, c, a⟩
  by_cases ht : t = [] <;> by_cases hb : b = [] <;> by_cases hc : c = 0 <;>
      by_cases ha : a = [] <;>
    simp [ht, hb, hc, ha, fromBytes, toBytes, gobEncodePage, gobDecode, zeroPage,
      gobDecodeFields_cons, gobDecodeFields_last, gobDecodeFields, natUnbytes_natBytes]

/-! ## Reading the latest revision, and the sequence counter -/

theorem byteID_inj {a b : Nat} (ha : a < 2 ^ 64) (hb : b < 2 ^ 64)
    (h : byteID a = byteID b) : a = b := by
  have h2 := beDecode_byteID a ha
  rw [h, beDecode_byteID b hb] at h2
  omega

theorem revEntries_fst_nodup : ∀ (ds : List Page) (k : Nat), k + ds.length < 2 ^ 64 →
    ((revEntries ds k).map Prod.fst).Nodup
  | [], _, _ => List.nodup_nil
  | d :: ds, k, h => by
    simp only [List.length_cons] at h
    simp only [revEntries, List.map_cons, List.nodup_cons]
    refine ⟨?_, revEntries_fst_nodup ds (k + 1) (by omega)⟩
    intro hmem
    obtain ⟨e, he, heq⟩ := List.mem_map.mp hmem
    obtain ⟨j, h1, h2, h3⟩ := revEntries_keys ds (k + 1) e he
    have hj : byteID j = byteID (k + 1) := by rw [← h1]; exact heq
    have hjk : j = k + 1 := byteID_inj (by omega) (by omega) hj
    omega

/-- C1 (amended): after the pages `ds ++ [d]` are appended on title
`T`, reading the latest revision returns exactly the last document
appended, and the entry it reads is the one stored under the highest
key, whose decoded sequence number is the number of appends; the
sequence number itself is not part of `loadPageRev`'s return value. -/
theorem readLatest_ok (ds : List Page) (d : Page) (T : List Nat)
    (hT : ∀ p ∈ ds ++ [d], p.title = T) (hlen : (ds ++ [d]).length < 2 ^ 64) :
    loadPageRev (appendPages (ds ++ [d])) T 0 = .ok d := by
  rw [appendPages_store _ T hT hlen, if_neg (by simp)]
  simp [loadPageRev, getBucket, revEntries_concat, List.getLast?_concat, fromBytes_toBytes]

theorem readLatest_returns_last_doc (ds : List Page) (d : Page) (T : List Nat)
    (hT : ∀ p ∈ ds ++ [d], p.title = T) (hlen : (ds ++ [d]).length < 2 ^ 64) :
    loadPageRev (appendPages (ds ++ [d])) T 0 = .ok d ∧
    ((getBucket (appendPages (ds ++ [d])) T).getD ⟨0, []⟩).entries.getLast?.map
        (fun e => beDecode e.1) = some (ds ++ [d]).length := by
  have hlen1 : ds.length + 1 < 2 ^ 64 := by simpa using hlen
  refine ⟨readLatest_ok ds d T hT hlen, ?_⟩
  rw [appendPages_store _ T hT hlen, if_neg (by simp)]
  simp [getBucket, revEntries_concat, List.getLast?_concat,
    beDecode_byteID _ (by omega : ds.length + 1 < 2 ^ 64)]

/-- Witness for C1's amended theorem at two appends. -/
theorem readLatest_returns_last_doc_witness :
    loadPageRev (appendPages ([pgA] ++ [pgB])) [72] 0 = .ok pgB ∧
    ((getBucket (appendPages ([pgA] ++ [pgB])) [72]).getD ⟨0, []⟩).entries.getLast?.map
        (fun e => beDecode e.1) = some ([pgA] ++ [pgB]).length :=
  readLatest_returns_last_doc [pgA] pgB [72] (by decide) (by norm_num)

/-- C1 counterexample: a one-append store and a two-append store whose
latest documents coincide give identical `loadPageRev` latest reads,
although their latest sequence numbers differ (1 and 2); the Go
function returns only `(*Page, error)`, so the sequence number N is
not returned with the document. -/
theorem readLatest_result_carries_no_sequence :
    loadPageRev (appendPages [pgB]) [72] 0 = loadPageRev (appendPages [pgA, pgB]) [72] 0 ∧
    ((getBucket (appendPages [pgB]) [72]).getD ⟨0, []⟩).entries.getLast?.map
        (fun e => beDecode e.1) = some 1 ∧
    ((getBucket (appendPages [pgA, pgB]) [72]).getD ⟨0, []⟩).entries.getLast?.map
        (fun e => beDecode e.1) = some 2 := by
  have h1 := readLatest_ok [] pgB [72] (by decide) (by norm_num)
  have h2 := readLatest_ok [pgA] pgB [72] (by decide) (by norm_num)
  simp only [List.nil_append, List.cons_append] at h1 h2
  exact ⟨by rw [h1, h2], by decide, by decide⟩

/-- C2: with all appends on title `T`, the bucket's persisted counter
is 0 before the first append and exactly m after m appends — so it
starts at 1, increments by exactly 1 per append, and never decreases —
the kth append's payload is stored under the key of sequence number k
(entries are exactly `revEntries`), and no two revisions share a key. -/
theorem sequence_counter_invariants (ds : List Page) (T : List Nat)
    (hT : ∀ d ∈ ds, d.title = T) (hlen : ds.length < 2 ^ 64) :
    (∀ m ≤ ds.length, ((getBucket (appendPages (ds.take m)) T).getD ⟨0, []⟩).seq = m) ∧
    ((getBucket (appendPages ds) T).getD ⟨0, []⟩).entries = revEntries ds 0 ∧
    (((getBucket (appendPages ds) T).getD ⟨0, []⟩).entries.map Prod.fst).Nodup := by
  have hmain : ∀ (es : List Page), (∀ d ∈ es, d.title = T) → es.length < 2 ^ 64 →
      ((getBucket (appendPages es) T).getD ⟨0, []⟩) =
        ⟨es.length, revEntries es 0⟩ := by
    intro es hTe hle
    rw [appendPages_store es T hTe hle]
    by_cases hes : es = []
    · subst hes
      simp [getBucket, revEntries]
    · simp [if_neg hes, getBucket]
  refine ⟨?_, ?_, ?_⟩
  · intro m hm
    have hTm : ∀ d ∈ ds.take m, d.title = T := fun d hd => hT d (List.take_subset m ds hd)
    have hlm : (ds.take m).length < 2 ^ 64 := by
      have := List.length_take_le m ds
      omega
    rw [hmain (ds.take m) hTm hlm]
    simp [List.length_take]
    omega
  · rw [hmain ds hT hlen]
  · rw [hmain ds hT hlen]
    exact revEntries_fst_nodup ds 0 (by omega)

/-- Witness for C2 at two appends. -/
theorem sequence_counter_invariants_witness :
    (∀ m ≤ [pgA, pgB].length,
      ((getBucket (appendPages ([pgA, pgB].take m)) [72]).getD ⟨0, []⟩).seq = m) ∧
    ((getBucket (appendPages [pgA, pgB]) [72]).getD ⟨0, []⟩).entries =
      revEntries [pgA, pgB] 0 ∧
    (((getBucket (appendPages [pgA, pgB]) [72]).getD ⟨0, []⟩).entries.map Prod.fst).Nodup :=
  sequence_counter_invariants [pgA, pgB] [72] (by decide) (by norm_num)

/-! ## History pagination -/

theorem walkBack_nums (n : Int) : ∀ (l : List (List Nat × List Nat)) (p : Page) (j : Int),
    (walkBack n p j l).map Revision.num =
      (l.map (fun e => intOfUint64 (beDecode e.1))).take (n - j).toNat
  | [], _, _ => by simp [walkBack]
  | (k, v) :: rest, p, j => by
    by_cases h : j ≥ n
    · have h0 : (n - j).toNat = 0 := by omega
      simp [walkBack, h, h0]
    · have h1 : (n - j).toNat = (n - (j + 1)).toNat + 1 := by omega
      simp only [walkBack, if_neg h, List.map_cons, h1, List.take_succ_cons]
      rw [walkBack_nums n rest (fromBytes v p) (j + 1)]

theorem natDescRun_length : ∀ t m, (natDescRun t m).length = m
  | _, 0 => rfl
  | t, m + 1 => by simp [natDescRun, natDescRun_length (t - 1) m]

theorem natDescRun_take : ∀ (m t r : Nat), (natDescRun t m).take r = natDescRun t (min r m)
  | 0, t, r => by simp [natDescRun]
  | m + 1, t, 0 => by simp [natDescRun]
  | m + 1, t, r + 1 => by
    show t :: (natDescRun (t - 1) m).take r = natDescRun t (min (r + 1) (m + 1))
    rw [natDescRun_take m (t - 1) r, Nat.succ_min_succ]
    rfl

theorem natDescRun_mem_le : ∀ t m x, x ∈ natDescRun t m → x ≤ t
  | t, 0, x, h => by simp [natDescRun] at h
  | t, m + 1, x, h => by
    rcases List.mem_cons.mp h with rfl | h2
    · exact le_refl x
    · exact le_trans (natDescRun_mem_le (t - 1) m x h2) (by omega)

theorem natDescRun_chain : ∀ t m, m ≤ t →
    List.Chain' (fun a b : Nat => b < a) (natDescRun t m)
  | _, 0, _ => List.chain'_nil
  | t, 1, _ => by simp [natDescRun]
  | t, m + 2, h => by
    have ih := natDescRun_chain (t - 1) (m + 1) (by omega)
    show List.Chain' _ (t :: (t - 1) :: natDescRun (t - 1 - 1) m)
    exact List.Chain'.cons (by omega) ih

theorem natDescRun_snoc : ∀ t m, m ≤ t → natDescRun t m ++ [t - m] = natDescRun t (m + 1)
  | t, 0, _ => by simp [natDescRun]
  | t, m + 1, h => by
    have ih := natDescRun_snoc (t - 1) m (by omega)
    show t :: (natDescRun (t - 1) m ++ [t - (m + 1)]) = t :: natDescRun (t - 1) (m + 1)
    rw [show t - (m + 1) = t - 1 - m from by omega, ih]

theorem revEntries_reverse_nums : ∀ (ds : List Page) (k : Nat), k + ds.length < 2 ^ 64 →
    (revEntries ds k).reverse.map (fun e => beDecode e.1) =
      natDescRun (k + ds.length) ds.length
  | [], _, _ => by simp [revEntries, natDescRun]
  | d :: ds, k, h => by
    simp only [List.length_cons] at h
    have ih := revEntries_reverse_nums ds (k + 1) (by omega)
    show ((byteID (k + 1), toBytes d) :: revEntries ds (k + 1)).reverse.map
        (fun e => beDecode e.1) = natDescRun (k + (ds.length + 1)) (ds.length + 1)
    rw [List.reverse_cons, List.map_append, ih]
    have hdec : beDecode (byteID (k + 1)) = k + 1 := beDecode_byteID _ (by omega)
    have hsnoc := natDescRun_snoc (k + 1 + ds.length) ds.length (by omega)
    have harith : k + 1 + ds.length - ds.length = k + 1 := by omega
    rw [harith] at hsnoc
    simp only [List.map_cons, List.map_nil, hdec]
    rw [hsnoc, show k + 1 + ds.length = k + (ds.length + 1) from by omega]

theorem seekBackAux_revEntries : ∀ (ds : List Page) (k : Nat)
    (acc : List (List Nat × List Nat)) (m : Nat),
    k < m → m ≤ k + ds.length → k + ds.length < 2 ^ 64 →
    ∃ pr, seekBackAux (byteID m) acc (revEntries ds k) = some pr ∧
      pr.1.1 = byteID m ∧
      pr.1 :: pr.2 = (revEntries (ds.take (m - k)) k).reverse ++ acc
  | [], k, acc, m, h1, h2, _ => absurd h2 (by simp; omega)
  | d :: ds, k, acc, m, h1, h2, h3 => by
    simp only [List.length_cons] at h2 h3
    have hcmp : bytesCmp (byteID (k + 1)) (byteID m) = natCmp (k + 1) m :=
      byteID_cmp _ _ (by omega) (by omega)
    by_cases hkm : k + 1 = m
    · have hceq : natCmp (k + 1) m = .eq := by
        unfold natCmp
        rw [if_neg (by omega), if_neg (by omega)]
      refine ⟨((byteID (k + 1), toBytes d), acc), ?_, by rw [hkm], ?_⟩
      · show seekBackAux (byteID m) acc
            ((byteID (k + 1), toBytes d) :: revEntries ds (k + 1)) = _
        simp only [seekBackAux, hcmp, hceq]
      · rw [show m - k = 1 from by omega]
        simp [revEntries, hkm]
    · have hclt : natCmp (k + 1) m = .lt := by
        unfold natCmp
        rw [if_pos (by omega)]
      obtain ⟨pr, hpr1, hpr2, hpr3⟩ :=
        seekBackAux_revEntries ds (k + 1) ((byteID (k + 1), toBytes d) :: acc) m
          (by omega) (by omega) (by omega)
      refine ⟨pr, ?_, hpr2, ?_⟩
      · show seekBackAux (byteID m) acc
            ((byteID (k + 1), toBytes d) :: revEntries ds (k + 1)) = _
        simp only [seekBackAux, hcmp, hclt]
        exact hpr1
      · rw [hpr3, show m - k = (m - (k + 1)) + 1 from by omega]
        show _ = (revEntries (d :: ds.take (m - (k + 1))) k).reverse ++ acc
        rw [show revEntries (d :: ds.take (m - (k + 1))) k
            = (byteID (k + 1), toBytes d) :: revEntries (ds.take (m - (k + 1))) (k + 1)
            from rfl]
        rw [List.reverse_cons, List.append_assoc]
        rfl

theorem pow63_lt_pow64 : (2 : Nat) ^ 63 < 2 ^ 64 := by norm_num

/-- C4: with N ≥ 1 revisions appended on title T and a positive limit
L, loadHistory with the latest sentinel (from = -1) succeeds and
returns exactly min(L, N) revision summaries whose sequence numbers
are strictly decreasing, the first being N. -/
theorem history_latest_page (ds : List Page) (T : List Nat) (L : Int)
    (hne : ds ≠ []) (hT : ∀ d ∈ ds, d.title = T) (hlen : ds.length < 2 ^ 63)
    (hL : 1 ≤ L) :
    ∃ hp, loadHistory (appendPages ds) T (-1) L = .ok hp ∧
      hp.revs.length = min L.toNat ds.length ∧
      hp.revs.head?.map Revision.num = some (ds.length : Int) ∧
      List.Chain' (fun a b : Int => b < a) (hp.revs.map Revision.num) := by
  obtain ⟨d0, ds', rfl⟩ := List.exists_cons_of_ne_nil hne
  have hlen64 : (d0 :: ds').length < 2 ^ 64 := lt_trans hlen pow63_lt_pow64
  have hN : (d0 :: ds').length = ds'.length + 1 := rfl
  have hload : loadHistory (appendPages (d0 :: ds')) T (-1) L
      = .ok ⟨T, walkBack L zeroPage 0 (revEntries (d0 :: ds') 0).reverse⟩ := by
    rw [appendPages_store _ T hT hlen64, if_neg (by simp)]
    rw [show revEntries (d0 :: ds') 0 = (byteID 1, toBytes d0) :: revEntries ds' 1 from rfl]
    simp [loadHistory, getBucket]
  have hnums : (walkBack L zeroPage 0 (revEntries (d0 :: ds') 0).reverse).map Revision.num
      = (natDescRun (ds'.length + 1) (min L.toNat (ds'.length + 1))).map
          (fun x : Nat => (x : Int)) := by
    rw [walkBack_nums]
    have hcomp : ((revEntries (d0 :: ds') 0).reverse.map
        (fun e => intOfUint64 (beDecode e.1)))
        = ((revEntries (d0 :: ds') 0).reverse.map (fun e => beDecode e.1)).map intOfUint64 := by
      rw [List.map_map]
      rfl
    rw [hcomp, revEntries_reverse_nums (d0 :: ds') 0 (by simpa using hlen64)]
    have hz : (0 : Nat) + (d0 :: ds').length = ds'.length + 1 := by simp
    rw [hz, hN]
    have hmap : (natDescRun (ds'.length + 1) (ds'.length + 1)).map intOfUint64
        = (natDescRun (ds'.length + 1) (ds'.length + 1)).map (fun x : Nat => (x : Int)) := by
      refine List.map_congr_left (fun x hx => ?_)
      have hxle := natDescRun_mem_le _ _ x hx
      have hxlt : x < 2 ^ 63 := by omega
      unfold intOfUint64
      rw [if_pos hxlt]
    rw [hmap, show L - 0 = L from by omega, ← List.map_take, natDescRun_take]
  refine ⟨_, hload, ?_, ?_, ?_⟩
  · show (walkBack L zeroPage 0 (revEntries (d0 :: ds') 0).reverse).length = _
    have hlg := congrArg List.length hnums
    simp only [List.length_map] at hlg
    rw [hlg, natDescRun_length, hN]
  · show (walkBack L zeroPage 0 (revEntries (d0 :: ds') 0).reverse).head?.map Revision.num
        = some (((d0 :: ds').length : Nat) : Int)
    rw [← List.head?_map, hnums]
    obtain ⟨r, hr⟩ : ∃ r, min L.toNat (ds'.length + 1) = r + 1 :=
      ⟨min L.toNat (ds'.length + 1) - 1, by omega⟩
    rw [hr, show natDescRun (ds'.length + 1) (r + 1)
        = (ds'.length + 1) :: natDescRun (ds'.length + 1 - 1) r from rfl]
    simp [hN]
  · show List.Chain' _ ((walkBack L zeroPage 0 (revEntries (d0 :: ds') 0).reverse).map
        Revision.num)
    rw [hnums, List.chain'_map]
    exact (natDescRun_chain _ _ (min_le_right _ _)).imp (fun a b h => by exact_mod_cast h)

/-- Witness for C4 at two appends and limit 5. -/
theorem history_latest_page_witness :
    ∃ hp, loadHistory (appendPages [pgA, pgB]) [72] (-1) 5 = .ok hp ∧
      hp.revs.length = min (5 : Int).toNat [pgA, pgB].length ∧
      hp.revs.head?.map Revision.num = some ([pgA, pgB].length : Int) ∧
      List.Chain' (fun a b : Int => b < a) (hp.revs.map Revision.num) :=
  history_latest_page [pgA, pgB] [72] 5 (by decide) (by decide) (by norm_num) (by norm_num)

theorem walkBack_revEntries_nums (es : List Page) (L : Int) (h : es.length < 2 ^ 63) :
    (walkBack L zeroPage 0 (revEntries es 0).reverse).map Revision.num
      = (natDescRun es.length (min L.toNat es.length)).map (fun x : Nat => (x : Int)) := by
  have h64 : (0 : Nat) + es.length < 2 ^ 64 := by
    have := pow63_lt_pow64
    omega
  rw [walkBack_nums]
  have hcomp : ((revEntries es 0).reverse.map (fun e => intOfUint64 (beDecode e.1)))
      = ((revEntries es 0).reverse.map (fun e => beDecode e.1)).map intOfUint64 := by
    rw [List.map_map]
    rfl
  rw [hcomp, revEntries_reverse_nums es 0 h64,
    show (0 : Nat) + es.length = es.length from by omega]
  have hmap : (natDescRun es.length es.length).map intOfUint64
      = (natDescRun es.length es.length).map (fun x : Nat => (x : Int)) := by
    refine List.map_congr_left (fun x hx => ?_)
    have hxle := natDescRun_mem_le _ _ x hx
    unfold intOfUint64
    rw [if_pos (by omega)]
  rw [hmap, show L - 0 = L from by omega, ← List.map_take, natDescRun_take]

/-- C5 (amended): for every split point where the previous page ended
at a sequence number s ≥ 2, resuming loadHistory with from = s - 1
succeeds and returns exactly the consecutive descending run
s-1, s-2, ..., down to max(s - L, 1) — the next page continues one
below the previous page with no duplicate and no gap.  (When the
previous page ended at sequence 1 the traversal is complete; resuming
with from = 0 fails with "page not exists", see the counterexample.) -/
theorem history_resume_page (ds : List Page) (T : List Nat) (L : Int) (s : Nat)
    (hT : ∀ d ∈ ds, d.title = T) (hlen : ds.length < 2 ^ 63)
    (hs1 : 2 ≤ s) (hs2 : s ≤ ds.length) :
    ∃ hp, loadHistory (appendPages ds) T ((s : Int) - 1) L = .ok hp ∧
      hp.revs.map Revision.num =
        (natDescRun (s - 1) (min L.toNat (s - 1))).map (fun x : Nat => (x : Int)) := by
  have hlen9 : ds.length < 9223372036854775808 := by
    have h63 : (2 : Nat) ^ 63 = 9223372036854775808 := by norm_num
    omega
  have hlen64 : ds.length < 2 ^ 64 := lt_trans hlen pow63_lt_pow64
  have hne : ds ≠ [] := by
    intro h
    subst h
    simp at hs2
    omega
  have hfrm : ¬((s : Int) - 1 = -1) := by omega
  have hu : uint64OfInt ((s : Int) - 1) = s - 1 := by
    unfold uint64OfInt
    have hp64 : ((2 : Int) ^ 64) = 18446744073709551616 := by norm_num
    rw [hp64]
    omega
  obtain ⟨⟨⟨ek, ev⟩, acc⟩, hpr1, hpr2, hpr3⟩ := seekBackAux_revEntries ds 0 [] (s - 1)
    (by omega) (by omega) (by omega)
  simp only at hpr2 hpr3
  have htk : (ds.take (s - 1)).length = s - 1 := by
    rw [List.length_take]
    omega
  have hwalk : (ek, ev) :: acc = (revEntries (ds.take (s - 1)) 0).reverse := by
    simpa using hpr3
  rw [appendPages_store ds T hT hlen64, if_neg hne]
  refine ⟨⟨T, walkBack L zeroPage 0 ((ek, ev) :: acc)⟩, ?_, ?_⟩
  · show loadHistory [(T, ⟨ds.length, revEntries ds 0⟩)] T ((s : Int) - 1) L = _
    unfold loadHistory
    simp only [getBucket, if_neg hfrm, hu, hpr1]
    simp [hpr1, hpr2]
  · show (walkBack L zeroPage 0 ((ek, ev) :: acc)).map Revision.num = _
    rw [hwalk, walkBack_revEntries_nums (ds.take (s - 1)) L (by omega), htk]

/-- C5 counterexample: after one append, the first history page ends
at sequence number 1; resuming with from = 0 (the sequence number
immediately below that last entry) does not yield a page — `Seek`
lands on the key of sequence 1, the exact-match check fails, and
loadHistory returns the error "page not exists". -/
theorem history_resume_from_zero_fails :
    (loadHistory (appendPages [pgA]) [72] (-1) 20).map (fun hp => hp.revs.map Revision.num)
        = .ok [(1 : Int)] ∧
    loadHistory (appendPages [pgA]) [72] 0 20 = .error "page not exists" :=
  ⟨rfl, rfl⟩

/-- Witness for C5's amended theorem at three appends, split at s = 2. -/
theorem history_resume_page_witness :
    ∃ hp, loadHistory (appendPages [pgA, pgB, pgC]) [72] (((2 : Nat) : Int) - 1) 5 = .ok hp ∧
      hp.revs.map Revision.num =
        (natDescRun (2 - 1) (min (5 : Int).toNat (2 - 1))).map (fun x : Nat => (x : Int)) :=
  history_resume_page [pgA, pgB, pgC] [72] 5 2 (by decide) (by norm_num)
    (by norm_num) (by decide)

/-! ## The view facade and the 0 sentinel -/

/-- C6 (amended): a view request with rev = "0" is not rejected as
invalid input: "0" parses successfully and the value 0 is passed
through to loadPageRev, where it selects the latest revision (the 0
sentinel of the store); the response is whatever that latest read
produces. -/
theorem view_rev_zero_passes_through (s : Store) (t : List Nat) :
    viewHandler s t "0" =
      match loadPageRev s t 0 with
      | .error _ => .notFound
      | .ok p => .render p := by
  unfold viewHandler
  rw [if_pos (by decide), show parseUint64 "0" = some 0 from rfl]

/-- C6 counterexample: with two revisions stored, the view request
rev = "0" renders the latest document — the store-level read receives
0 and serves the latest revision instead of the request being
rejected upstream. -/
theorem view_rev_zero_renders_latest :
    viewHandler (appendPages [pgA, pgB]) [72] "0" = .render pgB := by
  have h2 := readLatest_ok [pgA] pgB [72] (by decide) (by norm_num)
  simp only [List.cons_append, List.nil_append] at h2
  unfold viewHandler
  rw [if_pos (by decide), show parseUint64 "0" = some 0 from rfl]
  simp [h2]

/-! ## Corrupt records -/

/-- C7 counterexample: the byte [0] is not decodable gob, yet reading
the revision stored with that payload succeeds: loadPageRev returns
the zero-valued Page with no error, because fromBytes discards
dec.Decode's error. -/
theorem corrupt_record_read_returns_default :
    gobDecode zeroPage [0] = none ∧
    loadPageRev corruptStore [72] 1 = .ok zeroPage :=
  ⟨rfl, rfl⟩

/-- C7 (amended): for every payload bs that fails to gob-decode, a
read of the revision holding bs succeeds and returns the zero-valued
Page: the decode failure is silently ignored, never surfaced as an
error to the caller. -/
theorem corrupt_record_silently_ignored (t bs : List Nat)
    (hbad : gobDecode zeroPage bs = none) :
    loadPageRev [(t, ⟨1, [(byteID 1, bs)]⟩)] t 1 = .ok zeroPage := by
  unfold loadPageRev
  simp [getBucket, bucketGet, fromBytes, hbad]

/-- Witness for C7's amended theorem at the payload [0]. -/
theorem corrupt_record_silently_ignored_witness :
    gobDecode zeroPage ([0] : List Nat) = none ∧
    loadPageRev [(([72] : List Nat), ⟨1, [(byteID 1, [0])]⟩)] [72] 1 = .ok zeroPage :=
  ⟨rfl, corrupt_record_silently_ignored [72] [0] rfl⟩

/-! ## What the document codec encodes -/

/-- C8 counterexample: two pages differing only in their title have
different encoded payloads — the codec does encode the Title field. -/
theorem payload_contains_title :
    toBytes ⟨[65], [66], 0, [67]⟩ ≠ toBytes ⟨[68], [66], 0, [67]⟩ := by
  decide

/-- C8 (amended): the codec encodes the whole Page struct — title,
body, created and author, zero-valued fields omitted: decoding the
payload into a zero Page recovers every field, the title included,
which is therefore stored redundantly with the sub-bucket's name. -/
theorem codec_roundtrips_full_page (p : Page) : fromBytes (toBytes p) zeroPage = p :=
  fromBytes_toBytes p

/-! ## What savePage returns -/

theorem find?_append_of_none {α : Type} (f : α → Bool) :
    ∀ (l1 l2 : List α), l1.find? f = none → (l1 ++ l2).find? f = l2.find? f
  | [], _, _ => rfl
  | e :: l1, l2, h => by
    cases hfe : f e with
    | true =>
      rw [List.find?_cons_of_pos _ hfe] at h
      exact absurd h (by simp)
    | false =>
      rw [List.find?_cons_of_neg _ (by simp [hfe])] at h
      rw [List.cons_append, List.find?_cons_of_neg _ (by simp [hfe])]
      exact find?_append_of_none f l1 l2 h

theorem revEntries_find_absent (ds : List Page) (m : Nat) (hm : ds.length < m)
    (hlt : m < 2 ^ 64) :
    (revEntries ds 0).find? (fun e => e.1 == byteID m) = none := by
  rw [List.find?_eq_none]
  intro e he
  obtain ⟨j, h1, h2, h3⟩ := revEntries_keys ds 0 e he
  simp only [h1, beq_iff_eq]
  intro hbeq
  have hj : j = m := byteID_inj (by omega) (by omega) hbeq
  omega

theorem loadRev_last (ds : List Page) (p : Page) (T : List Nat)
    (hT : ∀ q ∈ ds ++ [p], q.title = T) (hlen : (ds ++ [p]).length < 2 ^ 64) :
    loadPageRev (appendPages (ds ++ [p])) T (ds.length + 1) = .ok p := by
  rw [appendPages_store _ T hT hlen, if_neg (by simp)]
  have hlen1 : ds.length + 1 < 2 ^ 64 := by simpa using hlen
  have hfind : (revEntries (ds ++ [p]) 0).find? (fun e => e.1 == byteID (ds.length + 1))
      = some (byteID (ds.length + 1), toBytes p) := by
    rw [revEntries_concat,
      find?_append_of_none _ _ _ (revEntries_find_absent ds (ds.length + 1) (by omega) hlen1)]
    simp
  unfold loadPageRev
  simp [getBucket, bucketGet, hfind, fromBytes_toBytes]

/-- C9 (amended): a successful savePage call returns only a nil
error — the assigned sequence number (the bucket counter plus one,
here N+1 after N appends) is recorded as the new revision's key and
counter value, and the revision is readable at exactly that sequence
number, but the number itself is not part of savePage's return value. -/
theorem append_assigns_next_sequence (ds : List Page) (p : Page) (T : List Nat)
    (hT : ∀ d ∈ ds, d.title = T) (hpT : p.title = T) (hlen : ds.length + 1 < 2 ^ 64) :
    (savePage (appendPages ds) p).2 = none ∧
    nextSeq (appendPages ds) T = ds.length + 1 ∧
    loadPageRev (savePage (appendPages ds) p).1 T (ds.length + 1) = .ok p := by
  have hT2 : ∀ q ∈ ds ++ [p], q.title = T := by
    intro q hq
    rcases List.mem_append.mp hq with h | h
    · exact hT q h
    · simp at h
      rw [h, hpT]
  refine ⟨rfl, ?_, ?_⟩
  · rw [appendPages_store ds T hT (by omega)]
    by_cases hds : ds = []
    · subst hds
      simp [nextSeq, getBucket]
    · rw [if_neg hds]
      simp [nextSeq, getBucket]
  · rw [← appendPages_concat]
    exact loadRev_last ds p T hT2 (by simpa using hlen)

/-- Witness for C9's amended theorem at one prior append. -/
theorem append_assigns_next_sequence_witness :
    (savePage (appendPages [pgA]) pgB).2 = none ∧
    nextSeq (appendPages [pgA]) [72] = [pgA].length + 1 ∧
    loadPageRev (savePage (appendPages [pgA]) pgB).1 [72] ([pgA].length + 1) = .ok pgB :=
  append_assigns_next_sequence [pgA] pgB [72] (by decide) (by decide) (by norm_num)

/-- C9 counterexample: two stores in which the next assigned sequence
number differs (1 and 2) give savePage calls with identical return
values (the nil error): the Go return value carries no sequence
number. -/
theorem append_return_carries_no_sequence :
    (savePage (appendPages []) pgA).2 = (savePage (appendPages [pgC]) pgA).2 ∧
    nextSeq (appendPages []) [72] ≠ nextSeq (appendPages [pgC]) [72] :=
  ⟨rfl, by decide⟩

/-! ## Line-ending normalization on save -/

theorem crlfToLf_of_no_crlf : ∀ l, hasCRLF l = false → crlfToLf l = l
  | [], _ => rfl
  | [_], _ => rfl
  | c1 :: c2 :: rest, h => by
    by_cases hc : c1 = 13 ∧ c2 = 10
    · exfalso
      simp [hasCRLF, hc.1, hc.2] at h
    · have h2 : hasCRLF (c2 :: rest) = false := by
        simp only [hasCRLF, Bool.or_eq_false_iff] at h
        exact h.2
      show (if c1 = 13 ∧ c2 = 10 then 10 :: crlfToLf rest
          else c1 :: crlfToLf (c2 :: rest)) = c1 :: c2 :: rest
      rw [if_neg hc, crlfToLf_of_no_crlf (c2 :: rest) h2]

/-- C10 (amended): the save path stores the form body after a single
left-to-right pass replacing each non-overlapping occurrence of CRLF
by LF, and a body already free of CRLF is stored byte-for-byte
unchanged; because the pass does not rescan, the stored body is
exactly crlfToLf of the form value but is not always CRLF-free (see
the counterexample). -/
theorem save_normalizes_line_endings (ds : List Page) (T body : List Nat)
    (now : Nat) (addr : List Nat) (hT : ∀ d ∈ ds, d.title = T)
    (hlen : ds.length + 1 < 2 ^ 64) :
    loadPageRev (saveHandler (appendPages ds) T body now addr) T 0
        = .ok ⟨T, crlfToLf body, now, addr⟩ ∧
    (hasCRLF body = false → crlfToLf body = body) := by
  refine ⟨?_, crlfToLf_of_no_crlf body⟩
  have hsh : saveHandler (appendPages ds) T body now addr
      = appendPages (ds ++ [⟨T, crlfToLf body, now, addr⟩]) := by
    rw [appendPages_concat]
    rfl
  rw [hsh]
  refine readLatest_ok ds _ T ?_ (by simpa using hlen)
  intro q hq
  rcases List.mem_append.mp hq with h | h
  · exact hT q h
  · simp at h
    rw [h]

/-- Witness for C10's amended theorem: a body with one CRLF saved
into an empty store. -/
theorem save_normalizes_line_endings_witness :
    loadPageRev (saveHandler (appendPages []) [72] [65, 13, 10, 66] 7 [97]) [72] 0
        = .ok ⟨[72], crlfToLf [65, 13, 10, 66], 7, [97]⟩ ∧
    (hasCRLF [65, 13, 10, 66] = false → crlfToLf [65, 13, 10, 66] = [65, 13, 10, 66]) :=
  save_normalizes_line_endings [] [72] [65, 13, 10, 66] 7 [97] (by decide) (by norm_num)

/-- C10 counterexample: the form body 13,13,10 is stored as 13,10 —
the single replacement pass creates a new CRLF adjacency, so a stored
revision body can contain the CRLF pair. -/
theorem save_stored_body_can_contain_crlf :
    crlfToLf [13, 13, 10] = [13, 10] ∧
    loadPageRev (saveHandler (appendPages []) [72] [13, 13, 10] 7 [97]) [72] 0
        = .ok ⟨[72], [13, 10], 7, [97]⟩ ∧
    hasCRLF [13, 10] = true := by
  refine ⟨by decide, ?_, by decide⟩
  have hsh : saveHandler (appendPages []) [72] [13, 13, 10] 7 [97]
      = appendPages ([] ++ [⟨[72], [13, 10], 7, [97]⟩]) := by
    rw [appendPages_concat]
    rfl
  rw [hsh]
  exact readLatest_ok [] ⟨[72], [13, 10], 7, [97]⟩ [72] (by decide) (by norm_num)
